import Mathlib

/-!
Verification of the `clp` command-line parser (files `clp.hh`, `clp.inl`,
`parse_traits.hh`).

Argument tokens are modelled as `List Char`; an argument list (`argc`/`argv`)
is a `List (List Char)`.  Parsers that can fail return `Option`, mirroring the
`std::optional` returns of the source.
-/

set_option linter.all false

/-- The single-pattern matcher `WithPattern::match` (clp.hh:101-119):
a token matches a pattern when it starts with the pattern and either has the
same length (matched text is empty) or the character just after the pattern
is a separator character, in which case the matched text is the remaining
suffix. -/
def matchPattern (pat text : List Char) : Option (List Char) :=
  if pat.isPrefixOf text then
    if text.length = pat.length then some []
    else if text.get? pat.length = some '=' then some (text.drop (pat.length + 1))
    else none
  else none

/-- The full matcher of a leaf over its registered patterns.  The decorator
chain `WithPattern<WithPattern<...>>` tries `Base::match` first
(clp.hh:103-108), so patterns are tried in registration order and the first
success wins; this is `List.findSome?` over the registration-ordered list. -/
def matchArgList (pats : List (List Char)) (text : List Char) : Option (List Char) :=
  pats.findSome? (fun p => matchPattern p text)

/-- A leaf option descriptor: the result of a decorator chain over
`clp::Option` (clp.hh).  `patterns` lists the registered patterns in
registration order; `parse_impl` is the value converter (the standard
`parse_traits` one of clp.hh:182-189 or a custom one of clp.hh:147-154);
`validate` is the conjunction of the attached `WithCheck` predicates
(`fun _ => true` when none is attached); `implicit_value` / `default_value`
are `some` exactly when the corresponding capability is attached;
`hint_text` and `description` feed help rendering. -/
structure Leaf (α : Type) where
  patterns : List (List Char)
  parse_impl : List Char → Option α
  validate : α → Bool
  implicit_value : Option α
  default_value : Option α
  hint_text : List Char
  description : List Char

/-- `match` of the assembled leaf: first matching registered pattern wins. -/
def Leaf.matchArg (l : Leaf α) (text : List Char) : Option (List Char) :=
  matchArgList l.patterns text

/-- `OptionInterface::parse(argc, argv)` (clp.inl:11-37): scan the argument
list in order; the first token that matches decides the outcome.  If its
matched text is empty and an implicit value is attached, the implicit value
is returned at once; otherwise the matched text is converted with
`parse_impl` and, on success, checked with `validate`.  If no token matches,
the default value is returned when attached, else the parse fails. -/
def Leaf.parse (l : Leaf α) : List (List Char) → Option α
  | [] => l.default_value
  | arg :: rest =>
    match l.matchArg arg with
    | some matched =>
      if matched = [] ∧ l.implicit_value.isSome then l.implicit_value
      else
        match l.parse_impl matched with
        | some v => if l.validate v then some v else none
        | none => none
    | none => l.parse rest

/-- The matched text of the first token of the list that matches the leaf,
if any: the value `*matched` seen by the first iteration of the loop in
`OptionInterface::parse` that enters the `if (matched)` branch. -/
def Leaf.firstMatch (l : Leaf α) : List (List Char) → Option (List Char)
  | [] => none
  | arg :: rest =>
    match l.matchArg arg with
    | some m => some m
    | none => l.firstMatch rest


/-- A compound parser (`clp::Compound`, clp.hh:287-303).  A member is any
whole-list parser (in the source, an `OptionInterface` leaf); `join`
corresponds to widening the member pack, and the nested pairs of its result
type model the struct `parse_result_type` that inherits every member's
result field (clp.hh:292). -/
inductive Comp : Type → Type 1 where
  | mem : {ρ : Type} → (List (List Char) → Option ρ) → Comp ρ
  | join : {ρ₁ ρ₂ : Type} → Comp ρ₁ → Comp ρ₂ → Comp (ρ₁ × ρ₂)

/-- `Compound::parse` (clp.inl:53-65): every member parses the full argument
list; if all succeeded the member results are aggregated, otherwise the
compound fails. -/
def Comp.parse : {ρ : Type} → Comp ρ → List (List Char) → Option ρ
  | _, .mem f, args => f args
  | _, .join a b, args =>
    match a.parse args, b.parse args with
    | some x, some y => some (x, y)
    | _, _ => none

/-- Whether every member parser of the compound succeeds on the argument
list: the condition `(opts && ...)` of clp.inl:60. -/
def Comp.membersSucceed : {ρ : Type} → Comp ρ → List (List Char) → Bool
  | _, .mem f, args => (f args).isSome
  | _, .join a b, args => a.membersSucceed args && b.membersSucceed args

/-- A named command (`clp::Command`, clp.hh:313-325): a name and the wrapped
sub-parser, kept abstract as a whole-list parser. -/
structure CommandT (ρ : Type) where
  name : List Char
  run : List (List Char) → Option ρ

/-- `Command::match` (clp.hh:320): exact equality of the token with the
command name. -/
def CommandT.matches (c : CommandT ρ) (text : List Char) : Bool :=
  text = c.name

/-- `Command::parse` (clp.inl:127-131): delegate to the wrapped sub-parser
over the argument list minus its first token (`argc - 1`, `argv + 1`). -/
def CommandT.parse (c : CommandT ρ) (args : List (List Char)) : Option ρ :=
  c.run (args.drop 1)

/-- A command selector (`clp::CommandSelector`, clp.hh:334-350) over one or
more commands; its result type is the tagged union of the member results,
modelled by nested sums. -/
inductive Selector : Type → Type 1 where
  | last : {ρ : Type} → CommandT ρ → Selector ρ
  | cons : {ρ₁ ρ₂ : Type} → CommandT ρ₁ → Selector ρ₂ → Selector (ρ₁ ⊕ ρ₂)

/-- `detail::parse_impl` (clp.inl:95-115): try each command in registration
order against the first token `tok` (`argv[0]`); the first whose `match`
succeeds parses the full list (stripping the command token itself) and its
result, successful or not, is the selector's result, injected into the
tagged union.  If no command matches, fail. -/
def Selector.parse_impl : {ρ : Type} → Selector ρ → List Char → List (List Char) → Option ρ
  | _, .last c, tok, args => if c.matches tok then c.parse args else none
  | _, .cons c rest, tok, args =>
    if c.matches tok then (c.parse args).map Sum.inl
    else (rest.parse_impl tok args).map Sum.inr

/-- `CommandSelector::parse` (clp.inl:118-125): fail on an empty argument
list (`argc <= 0`), else dispatch on the first token. -/
def Selector.parse : {ρ : Type} → Selector ρ → List (List Char) → Option ρ
  | _, s, [] => none
  | _, s, tok :: rest => s.parse_impl tok (tok :: rest)

/-- The names of the registered commands, in registration order. -/
def Selector.names : {ρ : Type} → Selector ρ → List (List Char)
  | _, .last c => [c.name]
  | _, .cons c rest => c.name :: rest.names

/-- Modelled from the spec: the body of `CommandWithSharedOptions::parse` is
declared at clp.hh:379 but its definition is not among the provided sources.
Spec section 4.4: parse the shared-options parser against the full argument
list, independently parse the command selector against the same full list;
both must succeed and the aggregate result carries both parts
(`parse_result_type` of clp.hh:373-377). -/
def sharedParse (shared : List (List Char) → Option σ) (sel : Selector ρ)
    (args : List (List Char)) : Option (σ × ρ) :=
  match shared args, sel.parse args with
  | some s, some c => some (s, c)
  | _, _ => none

/-- `WithPattern::patterns_to_string` (clp.hh:121-133): the registered
patterns joined in registration order with a comma and a space (the
innermost wrapper, i.e. the first registered pattern, is emitted first). -/
def patternsToString : List (List Char) → List Char
  | [] => []
  | [p] => p
  | p :: ps => p ++ ',' :: ' ' :: patternsToString ps

/-- The `while (out.size() < column_width) out.push_back(' ')` padding of
`OptionInterface::to_string` (clp.inl:166). -/
def padTo (n : Nat) (s : List Char) : List Char :=
  s ++ List.replicate (n - s.length) ' '

def defaultMarker : List Char := "By default: ".toList

def implicitMarker : List Char := "Implicitly: ".toList

/-- The first line built by `OptionInterface::to_string` (clp.inl:162-167):
patterns, then the hint between angle brackets, padded to column 40,
followed by the description. -/
def helpHeader (l : Leaf α) : List Char :=
  padTo 40 (patternsToString l.patterns ++ ' ' :: '<' :: (l.hint_text ++ ['>'])) ++ l.description

/-- `OptionInterface::to_string` (clp.inl:157-187): the header line; then,
when a default value is attached, a newline, 40 spaces, the text
`By default: ` and the stringified default; then the same for the implicit
value with `Implicitly: `; then a final newline.  `toStr` is
`parse_traits<T>::to_string`, the per-type stringifier of the value
conversion component. -/
def Leaf.to_string (l : Leaf α) (toStr : α → List Char) : List Char :=
  let out := helpHeader l
  let out :=
    match l.default_value with
    | some d => out ++ '\n' :: (List.replicate 40 ' ' ++ defaultMarker ++ toStr d)
    | none => out
  let out :=
    match l.implicit_value with
    | some i => out ++ '\n' :: (List.replicate 40 ' ' ++ implicitMarker ++ toStr i)
    | none => out
  out ++ ['\n']

/-- Split a character list into its newline-separated lines (the newline
characters themselves are dropped; a trailing newline yields a final empty
line). -/
def linesOf : List Char → List (List Char)
  | [] => [[]]
  | c :: rest =>
    if c = '\n' then [] :: linesOf rest
    else
      match linesOf rest with
      | [] => [[c]]
      | l :: ls => (c :: l) :: ls

/-- The value computed by a full-consumption numeric parse of a digit
string, most significant digit first: the accumulation performed by
`std::from_chars`. -/
def digitsToNat (ds : List Char) : Nat :=
  ds.foldl (fun a c => a * 10 + (c.toNat - 48)) 0

/-- The sign handling of `std::from_chars` for integer types: a single
leading minus sign is consumed for signed types only; no plus sign and no
leading whitespace are accepted. -/
def splitSign (signed : Bool) (text : List Char) : Bool × List Char :=
  if signed = true ∧ text.head? = some '-' then (true, text.tail) else (false, text)

/-- `std::from_chars` for an integer type with representable range
`[lo, hi]`, returning the parsed value (or `none` on `invalid_argument` /
`result_out_of_range`) together with the unconsumed remainder of the text
(the `ptr` of the result). -/
def fromChars (signed : Bool) (lo hi : Int) (text : List Char) :
    Option Int × List Char :=
  let s := splitSign signed text
  let ds := s.2.takeWhile Char.isDigit
  let rem := s.2.dropWhile Char.isDigit
  if ds = [] then (none, text)
  else
    let v : Int := if s.1 then -(digitsToNat ds : Int) else (digitsToNat ds : Int)
    if lo ≤ v ∧ v ≤ hi then (some v, rem) else (none, rem)

/-- `charconv_to_string_parse_traits::parse` (parse_traits.hh:23-30):
succeed exactly when `from_chars` reported no error and consumed the entire
text (`result.ec == errc() && result.ptr == text.end()`). -/
def charconvParse (signed : Bool) (lo hi : Int) (text : List Char) : Option Int :=
  match fromChars signed lo hi text with
  | (some v, rem) => if rem = [] then some v else none
  | (none, _) => none

/-- `parse_traits<bool>::parse` (parse_traits.hh:51-59). -/
def boolParse (text : List Char) : Option Bool :=
  if text = "true".toList then some true
  else if text = "false".toList then some false
  else none

/-- `parse_traits<bool>::to_string` (parse_traits.hh:61-64). -/
def boolToString (x : Bool) : List Char :=
  if x then "true".toList else "false".toList

/-- The capabilities a decorator chain can attach to a leaf
(clp.hh:227-276). -/
inductive Capability where
  | patternCap
  | descriptionCap
  | defaultCap
  | implicitCap
  | validatorCap
  | converterCap
  | hintCap
deriving DecidableEq

/-- Which capabilities a partially built decorator chain already has: the
`HasDescription` / `HasDefaultValue` / `HasImplicitValue` / `Pattern` /
`HasValidationCheck` style concept queries over the chain. -/
structure Caps where
  hasPattern : Bool
  hasDescription : Bool
  hasDefault : Bool
  hasImplicit : Bool
  hasValidator : Bool
  hasConverter : Bool
  hasHint : Bool
deriving DecidableEq

def Caps.has (c : Caps) : Capability → Bool
  | .patternCap => c.hasPattern
  | .descriptionCap => c.hasDescription
  | .defaultCap => c.hasDefault
  | .implicitCap => c.hasImplicit
  | .validatorCap => c.hasValidator
  | .converterCap => c.hasConverter
  | .hintCap => c.hasHint

/-- Attaching a capability wraps the chain in the corresponding decorator,
after which the chain has that capability (clp.hh:38-169). -/
def Caps.attach (c : Caps) : Capability → Caps
  | .patternCap => { c with hasPattern := true }
  | .descriptionCap => { c with hasDescription := true }
  | .defaultCap => { c with hasDefault := true }
  | .implicitCap => { c with hasImplicit := true }
  | .validatorCap => { c with hasValidator := true }
  | .converterCap => { c with hasConverter := true }
  | .hintCap => { c with hasHint := true }

/-- Whether a capability can be attached to a chain with capabilities `c`:
the `requires` clauses of the builder members of `OptionInterface`.
`operator()` requires `!HasDescription` (clp.hh:227), `default_to` requires
`!HasDefaultValue` (clp.hh:238), `implicitly` requires `!HasImplicitValue`
(clp.hh:250); `operator[]` (clp.hh:232), `check` (clp.hh:262),
`custom_parser` (clp.hh:268) and `hint` (clp.hh:273) carry no such
constraint and are accepted regardless of the capabilities already
present. -/
def Caps.canAttach (c : Caps) : Capability → Bool
  | .descriptionCap => !c.hasDescription
  | .defaultCap => !c.hasDefault
  | .implicitCap => !c.hasImplicit
  | _ => true

/-- `INT_MIN` of the 32-bit `int` instantiation of
`charconv_to_string_parse_traits` (parse_traits.hh:40). -/
def intMin32 : Int := -2147483648

/-- `INT_MAX` of the 32-bit `int` instantiation. -/
def intMax32 : Int := 2147483647

/-- A concrete leaf: `clp_Opt(int, width)["-w"]["--width"]`. -/
def widthLeaf : Leaf Int :=
  { patterns := ["-w".toList, "--width".toList]
    parse_impl := charconvParse true intMin32 intMax32
    validate := fun _ => true
    implicit_value := none
    default_value := none
    hint_text := "int".toList
    description := "window width".toList }

/-- A concrete leaf: `clp_Opt(int, height)["-h"]["--height"]`. -/
def heightLeaf : Leaf Int :=
  { patterns := ["-h".toList, "--height".toList]
    parse_impl := charconvParse true intMin32 intMax32
    validate := fun _ => true
    implicit_value := none
    default_value := none
    hint_text := "int".toList
    description := "window height".toList }

/-- A concrete leaf: `clp_Flag(fullscreen)["--fullscreen"]("fullscreen")`,
i.e. a bool option with default `false` and implicit `true`. -/
def fullscreenLeaf : Leaf Bool :=
  { patterns := ["--fullscreen".toList]
    parse_impl := boolParse
    validate := fun _ => true
    implicit_value := some true
    default_value := some false
    hint_text := "bool".toList
    description := "fullscreen".toList }

/-- A concrete leaf with a default value and the standard int converter:
`clp_Opt(int, count)["-n"].default_to(5)`. -/
def countLeaf : Leaf Int :=
  { patterns := ["-n".toList]
    parse_impl := charconvParse true intMin32 intMax32
    validate := fun _ => true
    implicit_value := none
    default_value := some 5
    hint_text := "int".toList
    description := "count".toList }

/-- A leaf whose converter always fails and whose validator always rejects,
with an implicit value attached: exercises the fact that the implicit path
consults neither of them. -/
def poisonLeaf : Leaf Bool :=
  { patterns := ["-f".toList]
    parse_impl := fun _ => none
    validate := fun _ => false
    implicit_value := some true
    default_value := some false
    hint_text := "bool".toList
    description := "poisoned flag".toList }

/-- A concrete command named `open-window`. -/
def openWindowCmdA : CommandT Int :=
  { name := "open-window".toList, run := widthLeaf.parse }

/-- A second command with the very same name, and a sub-parser that always
answers `999`: the deliberate tie-break edge case. -/
def openWindowCmdB : CommandT Int :=
  { name := "open-window".toList, run := fun _ => some 999 }

/-- A chain with no capability attached yet: the bare `clp::Option`. -/
def caps0 : Caps :=
  { hasPattern := false, hasDescription := false, hasDefault := false
    hasImplicit := false, hasValidator := false, hasConverter := false
    hasHint := false }

/- Bridge between the executable `List.isPrefixOf` used by the embedding of
`starts_with` and the declarative take-equation used by the claims. -/
theorem isPrefixOf_iff_take (p text : List Char) :
    p.isPrefixOf text = true ↔ text.take p.length = p := by
  induction p generalizing text with
  | nil => simp [List.isPrefixOf]
  | cons a as ih =>
    cases text with
    | nil => simp [List.isPrefixOf]
    | cons b bs =>
      simp only [List.isPrefixOf, List.length_cons, List.take_succ_cons,
        Bool.and_eq_true, beq_iff_eq, List.cons.injEq, ih]
      constructor
      · rintro ⟨h1, h2⟩; exact ⟨h1.symm, h2⟩
      · rintro ⟨h1, h2⟩; exact ⟨h1.symm, h2⟩

theorem matchPattern_eq_some_iff (p text m : List Char) :
    matchPattern p text = some m ↔
      (text.take p.length = p ∧
        ((text.length = p.length ∧ m = [])
          ∨ (text.get? p.length = some '=' ∧ m = text.drop (p.length + 1)))) := by
  have hpre := isPrefixOf_iff_take p text
  unfold matchPattern
  by_cases hp : p.isPrefixOf text = true
  · rw [if_pos hp]
    have htake : text.take p.length = p := hpre.mp hp
    by_cases hlen : text.length = p.length
    · have hget : text.get? p.length = none := List.get?_eq_none.mpr (by omega)
      rw [if_pos hlen]
      constructor
      · intro h
        exact ⟨htake, Or.inl ⟨hlen, (Option.some.inj h).symm⟩⟩
      · rintro ⟨-, (⟨-, rfl⟩ | ⟨hc, -⟩)⟩
        · rfl
        · rw [hget] at hc; exact absurd hc (by simp)
    · rw [if_neg hlen]
      by_cases heq : text.get? p.length = some '='
      · rw [if_pos heq]
        constructor
        · intro h
          exact ⟨htake, Or.inr ⟨heq, (Option.some.inj h).symm⟩⟩
        · rintro ⟨-, (⟨hl, -⟩ | ⟨-, rfl⟩)⟩
          · exact absurd hl hlen
          · rfl
      · rw [if_neg heq]
        constructor
        · intro h; exact absurd h (by simp)
        · rintro ⟨-, (⟨hl, -⟩ | ⟨hc, -⟩)⟩
          · exact absurd hl hlen
          · exact absurd hc heq
  · rw [if_neg hp]
    constructor
    · intro h; exact absurd h (by simp)
    · rintro ⟨htake, -⟩
      exact absurd (hpre.mpr htake) hp

theorem linesOf_append (a b : List Char) (ha : '\n' ∉ a) :
    linesOf (a ++ '\n' :: b) = a :: linesOf b := by
  induction a with
  | nil => simp [linesOf]
  | cons c cs ih =>
    have hc : ¬(c = '\n') := fun h => ha (h ▸ List.mem_cons_self c cs)
    have hcs : '\n' ∉ cs := fun h => ha (List.mem_cons_of_mem c h)
    simp only [List.cons_append, linesOf, if_neg hc, List.append_eq, ih hcs]


theorem selector_parse_impl_none_of_not_mem (ρ : Type) (s : Selector ρ)
    (tok : List Char) (args : List (List Char)) (hn : tok ∉ s.names) :
    s.parse_impl tok args = none := by
  induction s with
  | last c =>
    have : tok ≠ c.name := by
      simp [Selector.names] at hn; exact hn
    simp [Selector.parse_impl, CommandT.matches, this]
  | cons c s ih =>
    simp only [Selector.names, List.mem_cons, not_or] at hn
    simp [Selector.parse_impl, CommandT.matches, hn.1, ih hn.2]

/-- Claim C1: for every compound parser and every argument list, every
member is evaluated against the full argument list; the compound succeeds
exactly when every member succeeded, and in that case the result is the
aggregate of all member results (here: the nested pair of both operands'
results, each parsed from the full list). -/
theorem compound_parse_spec :
    (∀ (ρ : Type) (c : Comp ρ) (args : List (List Char)),
      (c.parse args).isSome = c.membersSucceed args)
    ∧ (∀ (ρ₁ ρ₂ : Type) (a : Comp ρ₁) (b : Comp ρ₂) (args : List (List Char))
        (x : ρ₁) (y : ρ₂),
      (Comp.join a b).parse args = some (x, y) ↔
        (a.parse args = some x ∧ b.parse args = some y)) := by
  constructor
  · intro ρ c args
    induction c with
    | mem f => rfl
    | join a b iha ihb =>
      simp only [Comp.parse, Comp.membersSucceed, ← iha, ← ihb]
      cases a.parse args <;> cases b.parse args <;> simp
  · intro ρ₁ ρ₂ a b args x y
    simp only [Comp.parse]
    cases ha : a.parse args <;> cases hb : b.parse args <;> simp

/-- Claim C2: a command selector fails on the empty argument list; otherwise
commands are tried in registration order, the first whose name equals the
first token is selected (on a name tie the first registered wins: the
equation holds whatever the later commands are), its sub-parser runs on the
tokens after the first, its result is injected into that command's case of
the tagged union, and when no registered name matches the selector fails. -/
theorem commandSelector_parse_spec :
    (∀ (ρ : Type) (s : Selector ρ), s.parse [] = none)
    ∧ (∀ (ρ : Type) (c : CommandT ρ) (tok : List Char) (rest : List (List Char)),
        (Selector.last c).parse (tok :: rest) =
          if tok = c.name then c.run rest else none)
    ∧ (∀ (ρ₁ ρ₂ : Type) (c : CommandT ρ₁) (s : Selector ρ₂) (tok : List Char)
        (rest : List (List Char)),
        tok = c.name →
        (Selector.cons c s).parse (tok :: rest) = (c.run rest).map Sum.inl)
    ∧ (∀ (ρ₁ ρ₂ : Type) (c : CommandT ρ₁) (s : Selector ρ₂) (tok : List Char)
        (rest : List (List Char)),
        tok ≠ c.name →
        (Selector.cons c s).parse (tok :: rest) = (s.parse (tok :: rest)).map Sum.inr)
    ∧ (∀ (ρ : Type) (s : Selector ρ) (tok : List Char) (rest : List (List Char)),
        tok ∉ s.names → s.parse (tok :: rest) = none) := by
  refine ⟨?_, ?_, ?_, ?_, ?_⟩
  · intro ρ s; rfl
  · intro ρ c tok rest
    by_cases h : tok = c.name <;>
      simp [Selector.parse, Selector.parse_impl, CommandT.matches, CommandT.parse, h]
  · intro ρ₁ ρ₂ c s tok rest h
    simp [Selector.parse, Selector.parse_impl, CommandT.matches, CommandT.parse, h]
  · intro ρ₁ ρ₂ c s tok rest h
    simp [Selector.parse, Selector.parse_impl, CommandT.matches, h]
  · intro ρ s tok rest hn
    show s.parse_impl tok (tok :: rest) = none
    exact selector_parse_impl_none_of_not_mem ρ s tok (tok :: rest) hn

/-- Witness for claim C2: two commands that share the name `open-window`;
the first registered one wins and its sub-parser receives the remaining
tokens, and a token matching no command name makes the selector fail. -/
theorem commandSelector_parse_spec_witness :
    (Selector.cons openWindowCmdA (Selector.last openWindowCmdB)).parse
        ["open-window".toList, "-w=800".toList] =
      (openWindowCmdA.run ["-w=800".toList]).map Sum.inl
    ∧ (Selector.last openWindowCmdB).parse ["fetch-url".toList] = none := by
  constructor
  · exact commandSelector_parse_spec.2.2.1 Int Int openWindowCmdA
      (Selector.last openWindowCmdB) "open-window".toList ["-w=800".toList] rfl
  · exact commandSelector_parse_spec.2.2.2.2 Int (Selector.last openWindowCmdB)
      "fetch-url".toList [] (by decide)

/-- Claim C3: a leaf matches a token exactly when some registered pattern p
satisfies: the token starts with p (its first p.length characters are p) and
either the lengths are equal (empty matched text) or the character right
after the p-prefix is the separator, yielding the rest as matched text;
patterns are tried in registration order and the first success wins. -/
theorem leaf_match_spec :
    (∀ (p text m : List Char),
      matchPattern p text = some m ↔
        (text.take p.length = p ∧
          ((text.length = p.length ∧ m = [])
            ∨ (text.get? p.length = some '=' ∧ m = text.drop (p.length + 1)))))
    ∧ (∀ (pats : List (List Char)) (p text m : List Char),
        matchPattern p text = some m → matchArgList (p :: pats) text = some m)
    ∧ (∀ (pats : List (List Char)) (p text : List Char),
        matchPattern p text = none →
        matchArgList (p :: pats) text = matchArgList pats text)
    ∧ (∀ (pats : List (List Char)) (text : List Char),
        (matchArgList pats text).isSome = true ↔
          ∃ p ∈ pats, (matchPattern p text).isSome = true) := by
  refine ⟨matchPattern_eq_some_iff, ?_, ?_, ?_⟩
  · intro pats p text m h
    simp [matchArgList, List.findSome?_cons, h]
  · intro pats p text h
    simp [matchArgList, List.findSome?_cons, h]
  · intro pats text
    induction pats with
    | nil => simp [matchArgList]
    | cons p ps ih =>
      cases h : matchPattern p text with
      | some m => simp [matchArgList, List.findSome?_cons, h]
      | none => simp [matchArgList, List.findSome?_cons, h, ih, matchArgList]

/-- Witness for claim C3: the first registered pattern matches and wins;
a non-matching first registered pattern defers to the remaining ones. -/
theorem leaf_match_spec_witness :
    matchArgList ["-w".toList, "--width".toList] "-w=1920".toList = some "1920".toList
    ∧ matchArgList ["-w".toList, "--width".toList] "--width=800".toList
        = matchArgList ["--width".toList] "--width=800".toList := by
  constructor
  · exact leaf_match_spec.2.1 ["--width".toList] "-w".toList "-w=1920".toList
      "1920".toList (by decide)
  · exact leaf_match_spec.2.2.1 ["--width".toList] "-w".toList "--width=800".toList
      (by decide)

/-- Claim C4: for a leaf carrying an implicit value, when the first matching
token of the argument list yields empty matched text the parse returns the
implicit value at once.  The leaf is arbitrary apart from these two facts,
so the conclusion holds whatever the converter, the validator and the
default value are: none of them can influence the result. -/
theorem implicit_value_bypass (α : Type) (l : Leaf α) (i : α)
    (args : List (List Char)) (hi : l.implicit_value = some i)
    (hm : l.firstMatch args = some []) : l.parse args = some i := by
  induction args with
  | nil => exact absurd hm (by simp [Leaf.firstMatch])
  | cons arg rest ih =>
    cases h : l.matchArg arg with
    | some m =>
      have hm2 : m = [] := by
        simp only [Leaf.firstMatch, h] at hm
        exact Option.some.inj hm
      subst hm2
      simp [Leaf.parse, h, hi]
    | none =>
      have hm2 : l.firstMatch rest = some [] := by
        simpa only [Leaf.firstMatch, h] using hm
      simp only [Leaf.parse, h]
      exact ih hm2

/-- Witness for claim C4: a leaf whose converter always fails, whose
validator always rejects, and whose default is `false`, still yields its
implicit value `true` on a bare pattern token. -/
theorem implicit_value_bypass_witness : poisonLeaf.parse ["-f".toList] = some true :=
  implicit_value_bypass Bool poisonLeaf true ["-f".toList] rfl (by decide)

/-- Claim C5: the default value applies exactly to absence.  If no token of
the list matches the leaf, the parse yields the default; but when the first
matching token carries text that the converter rejects (and the implicit
path does not apply), the parse fails as a whole even though a default is
attached. -/
theorem default_applies_to_absence_only :
    (∀ (α : Type) (l : Leaf α) (d : α),
      l.default_value = some d →
      ∀ args : List (List Char), (∀ a ∈ args, l.matchArg a = none) →
      l.parse args = some d)
    ∧ (∀ (α : Type) (l : Leaf α) (d : α) (post : List (List Char)) (tok m : List Char),
      l.default_value = some d →
      l.matchArg tok = some m →
      ¬(m = [] ∧ l.implicit_value.isSome = true) →
      l.parse_impl m = none →
      ∀ pre : List (List Char), (∀ a ∈ pre, l.matchArg a = none) →
      l.parse (pre ++ tok :: post) = none) := by
  constructor
  · intro α l d hd args
    induction args with
    | nil => intro _; simp [Leaf.parse, hd]
    | cons a as ih =>
      intro hnone
      have ha : l.matchArg a = none := hnone a (List.mem_cons_self a as)
      simp only [Leaf.parse, ha]
      exact ih fun x hx => hnone x (List.mem_cons_of_mem a hx)
  · intro α l d post tok m hd hmatch hnotimpl hconv pre
    induction pre with
    | nil =>
      intro _
      simp only [List.nil_append, Leaf.parse, hmatch, hconv]
      rw [if_neg ?_]
      · exact fun hc => hnotimpl ⟨hc.1, hc.2⟩
    | cons a as ih =>
      intro hnone
      have ha : l.matchArg a = none := hnone a (List.mem_cons_self a as)
      simp only [List.cons_append, Leaf.parse, ha]
      exact ih fun x hx => hnone x (List.mem_cons_of_mem a hx)

/-- Witness for claim C5: a leaf with default `5`; absent from the input it
parses to `5`, while the present-but-invalid token `-n=12abc` makes the
parse fail despite the default. -/
theorem default_applies_to_absence_only_witness :
    countLeaf.parse ["-x=1".toList] = some 5
    ∧ countLeaf.parse ["-n=12abc".toList] = none := by
  constructor
  · exact default_applies_to_absence_only.1 Int countLeaf 5 rfl ["-x=1".toList]
      (by decide)
  · exact default_applies_to_absence_only.2 Int countLeaf 5 [] "-n=12abc".toList
      "12abc".toList rfl (by decide) (by decide) (by decide) [] (by decide)

/-- Claim C6: a shared-options parser combined with a command selector runs
the shared-options parser on the full argument list and, independently, the
selector on the same full list; the combined parse succeeds exactly when
both succeed, and then carries both the shared-options record and the
selected command's tagged-union result.  (The parse body is modelled from
the spec, its definition being absent from the provided sources.) -/
theorem sharedOptions_parse_spec (σ ρ : Type) (shared : List (List Char) → Option σ)
    (sel : Selector ρ) (args : List (List Char)) (r : σ × ρ) :
    sharedParse shared sel args = some r ↔
      (shared args = some r.1 ∧ sel.parse args = some r.2) := by
  obtain ⟨s, c⟩ := r
  unfold sharedParse
  cases hs : shared args <;> cases hc : sel.parse args <;>
    simp

/-- Claim C7: two leaves with distinct result fields composed into a
compound, on an input where each succeeds individually with `v1` and `v2`,
yield a compound success whose record carries both values — and the same
two values whichever order the leaves were composed in. -/
theorem compound_two_leaves_commute (α β : Type) (l1 : Leaf α) (l2 : Leaf β)
    (args : List (List Char)) (v1 : α) (v2 : β)
    (h1 : l1.parse args = some v1) (h2 : l2.parse args = some v2) :
    (Comp.join (Comp.mem l1.parse) (Comp.mem l2.parse)).parse args = some (v1, v2)
    ∧ (Comp.join (Comp.mem l2.parse) (Comp.mem l1.parse)).parse args = some (v2, v1) := by
  constructor <;> simp [Comp.parse, h1, h2]

/-- Witness for claim C7: width and height leaves against
`["-w=800", "-h=600"]`, composed in both orders. -/
theorem compound_two_leaves_commute_witness :
    (Comp.join (Comp.mem widthLeaf.parse) (Comp.mem heightLeaf.parse)).parse
        ["-w=800".toList, "-h=600".toList] = some (800, 600)
    ∧ (Comp.join (Comp.mem heightLeaf.parse) (Comp.mem widthLeaf.parse)).parse
        ["-w=800".toList, "-h=600".toList] = some (600, 800) :=
  compound_two_leaves_commute Int Int widthLeaf heightLeaf
    ["-w=800".toList, "-h=600".toList] 800 600 (by decide) (by decide)

/-- Claim C8: in the rendered help text of a leaf with a description, the
`By default:` line and the `Implicitly:` line display exactly the string the
value conversion component's stringifier produces from the stored default
and implicit values. -/
theorem help_text_roundtrip (α : Type) (l : Leaf α) (toStr : α → List Char)
    (d i : α) (hd : l.default_value = some d) (hi : l.implicit_value = some i)
    (hh : '\n' ∉ helpHeader l) (hdn : '\n' ∉ toStr d) (hin : '\n' ∉ toStr i) :
    linesOf (Leaf.to_string l toStr) =
      [helpHeader l,
       List.replicate 40 ' ' ++ defaultMarker ++ toStr d,
       List.replicate 40 ' ' ++ implicitMarker ++ toStr i,
       []] := by
  have hL1 : '\n' ∉ List.replicate 40 ' ' ++ defaultMarker ++ toStr d := by
    intro hmem
    rcases List.mem_append.mp hmem with h | h
    · rcases List.mem_append.mp h with h | h
      · exact absurd (List.eq_of_mem_replicate h) (by decide)
      · revert h; decide
    · exact hdn h
  have hL2 : '\n' ∉ List.replicate 40 ' ' ++ implicitMarker ++ toStr i := by
    intro hmem
    rcases List.mem_append.mp hmem with h | h
    · rcases List.mem_append.mp h with h | h
      · exact absurd (List.eq_of_mem_replicate h) (by decide)
      · revert h; decide
    · exact hin h
  unfold Leaf.to_string
  rw [hd, hi]
  have hshape :
      (((helpHeader l ++ '\n' :: (List.replicate 40 ' ' ++ defaultMarker ++ toStr d))
          ++ '\n' :: (List.replicate 40 ' ' ++ implicitMarker ++ toStr i)) ++ ['\n'])
      = helpHeader l ++ '\n' ::
          ((List.replicate 40 ' ' ++ defaultMarker ++ toStr d) ++ '\n' ::
            ((List.replicate 40 ' ' ++ implicitMarker ++ toStr i) ++ '\n' :: ([] : List Char))) := by
    simp [List.append_assoc]
  rw [hshape, linesOf_append _ _ hh, linesOf_append _ _ hL1, linesOf_append _ _ hL2]
  rfl

/-- Witness for claim C8: the fullscreen flag (default `false`, implicit
`true`) rendered with the bool stringifier shows `false` and `true` on its
`By default:` and `Implicitly:` lines. -/
theorem help_text_roundtrip_witness :
    linesOf (Leaf.to_string fullscreenLeaf boolToString) =
      [helpHeader fullscreenLeaf,
       List.replicate 40 ' ' ++ defaultMarker ++ boolToString false,
       List.replicate 40 ' ' ++ implicitMarker ++ boolToString true,
       []] :=
  help_text_roundtrip Bool fullscreenLeaf boolToString false true rfl rfl
    (by decide) (by decide) (by decide)

/-- Counterexample to claim C9 as stated: not every capability is guarded
against double attachment.  `operator[]` (clp.hh:232) carries no requires
clause, so a pattern can be attached to a chain that already has one (that
is how an option acquires several patterns); the same holds for `check`,
`custom_parser` and `hint`. -/
theorem capability_reattach_counterexample :
    ¬ (∀ (c : Caps) (k : Capability), (c.attach k).canAttach k = false) :=
  fun h => absurd (h caps0 Capability.patternCap) (by decide)

/-- Claim C9, amended: exactly the description, default-value and
implicit-value capabilities are rejected when attached to a chain that
already has them (the requires clauses of clp.hh:227, 238, 250); attaching
a pattern, a validator, a custom converter or a custom hint a second time
is accepted. -/
theorem capability_attach_guards :
    (∀ (c : Caps) (k : Capability),
      (c.attach k).canAttach k = false ↔
        (k = Capability.descriptionCap ∨ k = Capability.defaultCap
          ∨ k = Capability.implicitCap))
    ∧ (∀ (c : Caps) (k : Capability),
      c.canAttach k = false ↔
        (c.has k = true ∧
          (k = Capability.descriptionCap ∨ k = Capability.defaultCap
            ∨ k = Capability.implicitCap))) := by
  constructor
  · intro c k
    cases k <;> simp [Caps.attach, Caps.canAttach]
  · intro c k
    cases k <;> simp [Caps.canAttach, Caps.has]

theorem charconvParse_some_iff (signed : Bool) (lo hi : Int) (text : List Char)
    (v : Int) :
    charconvParse signed lo hi text = some v ↔
      ((splitSign signed text).2 ≠ []
        ∧ (∀ c ∈ (splitSign signed text).2, c.isDigit = true)
        ∧ v = (if (splitSign signed text).1 = true
                then -(digitsToNat (splitSign signed text).2 : Int)
                else (digitsToNat (splitSign signed text).2 : Int))
        ∧ lo ≤ v ∧ v ≤ hi) := by
  rcases hsp : splitSign signed text with ⟨neg, rest⟩
  unfold charconvParse fromChars
  rw [hsp]
  dsimp only
  by_cases hall : ∀ c ∈ rest, c.isDigit = true
  · have hdrop : rest.dropWhile Char.isDigit = [] :=
      List.dropWhile_eq_nil_iff.mpr hall
    have htake : rest.takeWhile Char.isDigit = rest :=
      List.takeWhile_eq_self_iff.mpr hall
    rw [htake, hdrop]
    by_cases hrest : rest = []
    · subst hrest
      simp
    · rw [if_neg hrest]
      by_cases hrange :
          lo ≤ (if neg = true then -(digitsToNat rest : Int) else (digitsToNat rest : Int))
          ∧ (if neg = true then -(digitsToNat rest : Int) else (digitsToNat rest : Int)) ≤ hi
      · rw [if_pos hrange]
        dsimp only
        rw [if_pos rfl]
        constructor
        · intro h
          have hv := (Option.some.inj h).symm
          exact ⟨hrest, hall, hv, hv ▸ hrange.1, hv ▸ hrange.2⟩
        · rintro ⟨-, -, rfl, -, -⟩
          rfl
      · rw [if_neg hrange]
        constructor
        · intro h; exact absurd h (by simp)
        · rintro ⟨-, -, rfl, h1, h2⟩
          exact absurd ⟨h1, h2⟩ hrange
  · have hdrop : rest.dropWhile Char.isDigit ≠ [] :=
      fun h => hall (List.dropWhile_eq_nil_iff.mp h)
    by_cases hds : rest.takeWhile Char.isDigit = []
    · rw [if_pos hds]
      constructor
      · intro h; exact absurd h (by simp)
      · rintro ⟨-, hall2, -, -⟩
        exact absurd hall2 hall
    · rw [if_neg hds]
      by_cases hrange :
          lo ≤ (if neg = true then -(digitsToNat (rest.takeWhile Char.isDigit) : Int)
                else (digitsToNat (rest.takeWhile Char.isDigit) : Int))
          ∧ (if neg = true then -(digitsToNat (rest.takeWhile Char.isDigit) : Int)
             else (digitsToNat (rest.takeWhile Char.isDigit) : Int)) ≤ hi
      · rw [if_pos hrange]
        dsimp only
        rw [if_neg hdrop]
        constructor
        · intro h; exact absurd h (by simp)
        · rintro ⟨-, hall2, -, -⟩
          exact absurd hall2 hall
      · rw [if_neg hrange]
        constructor
        · intro h; exact absurd h (by simp)
        · rintro ⟨-, hall2, -, -⟩
          exact absurd hall2 hall

/-- Claim C10: the standard integer converter succeeds exactly when the
numeric parse consumes the entire text: the text is a non-empty digit
string, optionally preceded by one minus sign for a signed type, whose
value lies in the representable range; any trailing garbage, embedded
space or invalid prefix fails rather than yielding the value of a
prefix. -/
theorem charconv_full_consumption (signed : Bool) (lo hi : Int) (text : List Char)
    (v : Int) :
    charconvParse signed lo hi text = some v ↔
      ∃ ds : List Char, ds ≠ [] ∧ (∀ c ∈ ds, c.isDigit = true) ∧
        ((text = ds ∧ v = (digitsToNat ds : Int))
          ∨ (signed = true ∧ text = '-' :: ds ∧ v = -(digitsToNat ds : Int)))
        ∧ lo ≤ v ∧ v ≤ hi := by
  rw [charconvParse_some_iff]
  by_cases hs : signed = true ∧ text.head? = some '-'
  · have hsplit : splitSign signed text = (true, text.tail) := by
      unfold splitSign; rw [if_pos hs]
    obtain ⟨hsg, hhd⟩ := hs
    obtain ⟨c, rest, rfl⟩ : ∃ c rest, text = c :: rest := by
      cases text with
      | nil => exact absurd hhd (by simp)
      | cons c rest => exact ⟨c, rest, rfl⟩
    have hc : c = '-' := by simpa using hhd
    subst hc
    rw [hsplit]
    dsimp only
    rw [if_pos rfl]
    constructor
    · rintro ⟨hne, hall, hv, h1, h2⟩
      exact ⟨rest, hne, hall, Or.inr ⟨hsg, rfl, hv⟩, h1, h2⟩
    · rintro ⟨ds, hne, hall, hd, h1, h2⟩
      rcases hd with ⟨heq, hv⟩ | ⟨-, heq, hv⟩
      · exfalso
        have hmem : '-' ∈ ds := heq ▸ List.mem_cons_self '-' rest
        have := hall '-' hmem
        exact absurd this (by decide)
      · obtain rfl : rest = ds := by simpa using heq
        exact ⟨hne, hall, hv, h1, h2⟩
  · have hsplit : splitSign signed text = (false, text) := by
      unfold splitSign; rw [if_neg hs]
    rw [hsplit]
    dsimp only
    rw [if_neg (by simp)]
    constructor
    · rintro ⟨hne, hall, hv, h1, h2⟩
      exact ⟨text, hne, hall, Or.inl ⟨rfl, hv⟩, h1, h2⟩
    · rintro ⟨ds, hne, hall, hd, h1, h2⟩
      rcases hd with ⟨heq, hv⟩ | ⟨hsg, heq, hv⟩
      · subst heq
        exact ⟨hne, hall, hv, h1, h2⟩
      · exfalso
        exact hs ⟨hsg, by rw [heq]; rfl⟩
